import Mathlib

/-!
Verification of the document-segmentation pipeline from
`examples/Embedding_Wikipedia_articles_for_search.ipynb`.

Text is modelled as `List Char`.  The tokenizer (tiktoken) is an external
collaborator; it is modelled as an abstract `Encoding` consisting of an
`encode` and a `decode` function, so that `num_tokens` and `truncated_string`
are faithful to the notebook's use of `encoding.encode` / `encoding.decode`.

Recursive string scans (`Python str.split`, the `re.sub` pass) are written
with an explicit fuel argument equal to the input length so that every
definition is structurally recursive and evaluates inside the kernel.
-/

/-- Text, modelled as a list of characters. -/
abbrev Str := List Char

/-- Test whether `pat` occurs at the start: `isStart pat s` is true when `pat` occurs at the very start of `s`
(Python's `s.startswith(pat)`). -/
def isStart : Str → Str → Bool
  | [], _ => true
  | _ :: _, [] => false
  | p :: ps, c :: cs => p == c && isStart ps cs

/-- Python's `delimiter.join(pieces)`. -/
def joinSep (sep : Str) : List Str → Str
  | [] => []
  | [x] => x
  | x :: y :: xs => x ++ sep ++ joinSep sep (y :: xs)

/-- Fuel-indexed body of Python's `string.split(sep)` (non-overlapping,
left-to-right).  The fuel only needs to dominate the length of the string. -/
def pySplitF (sep : Str) : Nat → Str → List Str
  | _, [] => [[]]
  | 0, s => [s]
  | fuel + 1, c :: cs =>
    if sep ≠ [] ∧ isStart sep (c :: cs) then
      [] :: pySplitF sep fuel ((c :: cs).drop sep.length)
    else
      match pySplitF sep fuel cs with
      | [] => [[c]]
      | h :: t => (c :: h) :: t

/-- Python's `string.split(sep)` for a non-empty separator. -/
def pySplit (sep s : Str) : List Str := pySplitF sep s.length s

/-- Python's `s.strip(chars)`: remove the characters of `cs` from both ends. -/
def pyStrip (cs : Str) (s : Str) : Str :=
  List.rdropWhile (cs.contains ·) (List.dropWhile (cs.contains ·) s)

/-- The whitespace characters stripped by Python's no-argument `str.strip()`
(ASCII fragment). -/
def wsChars : Str := [' ', '\t', '\n', '\r', '\x0b', '\x0c']

/-- Python's `text.strip()`. -/
def pyStripWs (s : Str) : Str := pyStrip wsChars s

/-- The literal `"<ref"` that opens a reference span. -/
def openRef : Str := ['<', 'r', 'e', 'f']

/-- The literal `"</ref>"` that closes a reference span. -/
def closeRef : Str := ['<', '/', 'r', 'e', 'f', '>']

/-- The lazy `.*?</ref>` tail of the pattern `<ref.*?</ref>`: scan for the
nearest `</ref>`, where `.` may consume any character except a newline.
Returns the suffix that follows the match, or `none` when the pattern cannot
match from here. -/
def lazyClose : Str → Option Str
  | [] => none
  | c :: cs =>
    if isStart closeRef (c :: cs) then some ((c :: cs).drop 6)
    else if c = '\n' then none
    else lazyClose cs

/-- Try to match the regex `<ref.*?</ref>` at the start of `s`; on success
return the suffix following the match. -/
def matchRef (s : Str) : Option Str :=
  if isStart openRef s then lazyClose (s.drop 4) else none

/-- Fuel-indexed body of `re.sub(r"<ref.*?</ref>", "", s)`: replace every
non-overlapping, leftmost-first match by the empty string. -/
def refSubF : Nat → Str → Str
  | _, [] => []
  | 0, s => s
  | fuel + 1, c :: cs =>
    match matchRef (c :: cs) with
    | some rest => refSubF fuel rest
    | none => c :: refSubF fuel cs

/-- Model of `re.sub(r"<ref.*?</ref>", "", s)` from `clean_section`. -/
def refSub (s : Str) : Str := refSubF s.length s

/-- Model of `clean_section` from the notebook: remove `<ref>…</ref>` spans, then strip
surrounding whitespace; the title path is untouched. -/
def clean_section (sec : List Str × Str) : List Str × Str :=
  (sec.1, pyStripWs (refSub sec.2))

/-- The characters stripped off wiki headings: `title.strip("=" + " ")`. -/
def headingChars : Str := ['=', ' ']

/-- A parsed wiki section: its own heading, the body text that belongs to the
node itself, and the next-level subsections, in document order.  This models
the `mwparserfromhell.wikicode.Wikicode` value that the notebook walks via
`filter_headings` / `get_sections`. -/
inductive WikiSection where
  | mk (title : Str) (body : Str) (children : List WikiSection)

/-- Model of `all_subsections_from_section` from the notebook: flatten a section into
`(parent titles ++ [title], body)` pairs; a section whose stripped title is in
`sections_to_ignore` is dropped together with its whole subtree (the function
returns before recursing). -/
def all_subsections_from_section :
    WikiSection → List Str → List Str → List (List Str × Str)
  | WikiSection.mk title body children, parent_titles, sections_to_ignore =>
    if pyStrip headingChars title ∈ sections_to_ignore then []
    else
      let titles := parent_titles ++ [title]
      (titles, body) ::
        (children.attach.map
          (fun c => all_subsections_from_section c.1 titles sections_to_ignore)).flatten
  termination_by sec _ _ => sizeOf sec
  decreasing_by
    simp only [WikiSection.mk.sizeOf_spec]
    have h := List.sizeOf_lt_of_mem c.2
    omega

/-- The external tokenizer: `encode` and `decode` as exposed by
`tiktoken.encoding_for_model(model)`.  `τ` is the (opaque) token type. -/
structure Encoding (τ : Type) where
  encode : Str → List τ
  decode : List τ → Str

/-- Model of `num_tokens` from the notebook: the length of the encoded string. -/
def num_tokens {τ : Type} (enc : Encoding τ) (s : Str) : Nat :=
  (enc.encode s).length

/-- Model of `truncated_string` from the notebook: decode the first `max_tokens` tokens
of the string.  (The `print_warning` side effect is pure I/O and not
modelled.) -/
def truncated_string {τ : Type} (enc : Encoding τ) (s : Str) (max_tokens : Nat) : Str :=
  enc.decode ((enc.encode s).take max_tokens)

/-- The trivial character-level tokenizer (one token per character), used to
instantiate theorems at concrete inputs. -/
def idEnc : Encoding Char where
  encode := fun s => s
  decode := fun l => l

/-- The final loop index of `halved_by_delimiter`'s scan, fed with the list of
the values `abs(halfway - num_tokens(left))` for each candidate prefix.
Starting from `best_diff = best`, the scan breaks at the first index whose
diff fails to strictly improve on `best_diff`; if it never breaks, the index
ends at the last element (Python's `for i, chunk in enumerate(chunks)` leaves
`i` at the last position). -/
def stopIdx (best : Nat) : List Nat → Nat
  | [] => 0
  | [_] => 0
  | x :: y :: rest => if best ≤ x then 0 else stopIdx x (y :: rest) + 1

/-- The diff computed on iteration `j` of the scan: `abs(halfway - num_tokens
(delimiter.join(chunks[: j + 1])))`. -/
def halfDiff {τ : Type} (enc : Encoding τ) (d : Str) (chunks : List Str)
    (halfway j : Nat) : Nat :=
  ((halfway : Int) - (num_tokens enc (joinSep d (chunks.take (j + 1))) : Int)).natAbs

/-- Model of `halved_by_delimiter` from the notebook: split on the delimiter, and for
three or more pieces scan left to right for a prefix whose token count best
approaches half the total, splitting just before the first index that fails
to improve. -/
def halved_by_delimiter {τ : Type} (enc : Encoding τ) (string : Str) (d : Str) :
    Str × Str :=
  match pySplit d string with
  | [] => (string, [])
  | [_] => (string, [])
  | [a, b] => (a, b)
  | a :: b :: c :: rest =>
    let chunks := a :: b :: c :: rest
    let halfway := num_tokens enc string / 2
    let diffs := (List.range chunks.length).map (halfDiff enc d chunks halfway)
    let i := stopIdx halfway diffs
    (joinSep d (chunks.take i), joinSep d (chunks.drop i))

/-- The paragraph-break delimiter `"\n\n"`. -/
def nlnl : Str := ['\n', '\n']

/-- The line-break delimiter `"\n"`. -/
def nl : Str := ['\n']

/-- The sentence-end delimiter `". "`. -/
def periodSpace : Str := ['.', ' ']

/-- The `for delimiter in ["\n\n", "\n", ". "]` loop of
`split_strings_from_subsection`: try each delimiter in turn; on a half that is
empty, continue with the next delimiter; on success return the recursive
results of both halves (here `f` is the recursive call at depth
`max_recursion - 1`). -/
def tryDelimiters {τ : Type} (enc : Encoding τ) (titles : List Str) (text : Str)
    (f : List Str × Str → List Str) : List Str → Option (List Str)
  | [] => none
  | d :: ds =>
    let lr := halved_by_delimiter enc text d
    if lr.1 = [] ∨ lr.2 = [] then tryDelimiters enc titles text f ds
    else some (f (titles, lr.1) ++ f (titles, lr.2))

/-- Model of `split_strings_from_subsection` from the notebook. -/
def split_strings_from_subsection {τ : Type} (enc : Encoding τ) (max_tokens : Nat) :
    Nat → List Str × Str → List Str
  | max_recursion, (titles, text) =>
    let string := joinSep nlnl (titles ++ [text])
    if num_tokens enc string ≤ max_tokens then [string]
    else
      match max_recursion with
      | 0 => [truncated_string enc string max_tokens]
      | r + 1 =>
        match tryDelimiters enc titles text
            (fun sub => split_strings_from_subsection enc max_tokens r sub)
            [nlnl, nl, periodSpace] with
        | some res => res
        | none => [truncated_string enc string max_tokens]

/-! ### Helper lemmas about `joinSep`, `isStart` and `pySplit` -/

theorem joinSep_cons_cons (sep : Str) (c : Char) (h : Str) (t : List Str) :
    joinSep sep ((c :: h) :: t) = c :: joinSep sep (h :: t) := by
  cases t with
  | nil => rfl
  | cons y ys => simp [joinSep, List.cons_append]

theorem isStart_append_drop (p : Str) : ∀ (s : Str), isStart p s = true →
    p ++ s.drop p.length = s := by
  induction p with
  | nil => intro s _; simp
  | cons a ps ih =>
    intro s h
    cases s with
    | nil => simp [isStart] at h
    | cons c cs =>
      simp only [isStart, Bool.and_eq_true, beq_iff_eq] at h
      obtain ⟨rfl, h2⟩ := h
      simpa [List.length_cons, List.drop_succ_cons] using ih cs h2

theorem pySplitF_ne_nil (sep : Str) : ∀ (fuel : Nat) (s : Str),
    pySplitF sep fuel s ≠ [] := by
  intro fuel
  induction fuel with
  | zero => intro s; cases s <;> simp [pySplitF]
  | succ fuel ih =>
    intro s
    cases s with
    | nil => simp [pySplitF]
    | cons c cs =>
      rw [pySplitF]
      split
      · simp
      · rcases hr : pySplitF sep fuel cs with _ | ⟨h, t⟩
        · exact absurd hr (ih cs)
        · simp [hr]

theorem joinSep_pySplitF (sep : Str) : ∀ (fuel : Nat) (s : Str),
    joinSep sep (pySplitF sep fuel s) = s := by
  intro fuel
  induction fuel with
  | zero => intro s; cases s <;> simp [pySplitF, joinSep]
  | succ fuel ih =>
    intro s
    cases s with
    | nil => simp [pySplitF, joinSep]
    | cons c cs =>
      rw [pySplitF]
      split
      · rename_i hcond
        rcases hr : pySplitF sep fuel ((c :: cs).drop sep.length) with _ | ⟨h, t⟩
        · exact absurd hr (pySplitF_ne_nil sep fuel _)
        · have hj : joinSep sep ([] :: h :: t) = sep ++ joinSep sep (h :: t) := by
            simp [joinSep]
          rw [hj, ← hr, ih]
          exact isStart_append_drop sep (c :: cs) hcond.2
      · rcases hr : pySplitF sep fuel cs with _ | ⟨h, t⟩
        · exact absurd hr (pySplitF_ne_nil sep fuel cs)
        · show joinSep sep ((c :: h) :: t) = c :: cs
          rw [joinSep_cons_cons, ← hr, ih]

theorem pySplit_ne_nil (sep s : Str) : pySplit sep s ≠ [] :=
  pySplitF_ne_nil sep s.length s

theorem joinSep_pySplit (sep s : Str) : joinSep sep (pySplit sep s) = s :=
  joinSep_pySplitF sep s.length s

theorem joinSep_append (sep : Str) : ∀ (l₁ l₂ : List Str), l₁ ≠ [] → l₂ ≠ [] →
    joinSep sep (l₁ ++ l₂) = joinSep sep l₁ ++ sep ++ joinSep sep l₂ := by
  intro l₁
  induction l₁ with
  | nil => intro l₂ h₁ _; exact absurd rfl h₁
  | cons x xs ih =>
    intro l₂ _ h₂
    cases xs with
    | nil =>
      cases l₂ with
      | nil => exact absurd rfl h₂
      | cons y ys => simp [joinSep]
    | cons y ys =>
      have hrec := ih l₂ (by simp) h₂
      simp only [List.cons_append] at hrec ⊢
      rw [joinSep, hrec, joinSep]
      simp [List.append_assoc]

/-! ### Helper lemmas about the balanced-halving scan -/

theorem stopIdx_le (best : Nat) (l : List Nat) : stopIdx best l ≤ l.length - 1 := by
  induction l generalizing best with
  | nil => simp [stopIdx]
  | cons x xs ih =>
    cases xs with
    | nil => simp [stopIdx]
    | cons y ys =>
      rw [stopIdx]
      by_cases hbx : best ≤ x
      · simp [hbx]
      · rw [if_neg hbx]
        have := ih x
        simp only [List.length_cons] at this ⊢
        omega

theorem stopIdx_lt_improves (l : List Nat) : ∀ (best j : Nat), j < stopIdx best l →
    l.getD j 0 < (if j = 0 then best else l.getD (j - 1) 0) := by
  induction l with
  | nil => intro best j h; simp [stopIdx] at h
  | cons x xs ih =>
    intro best j h
    cases xs with
    | nil => simp [stopIdx] at h
    | cons y ys =>
      rw [stopIdx] at h
      by_cases hbx : best ≤ x
      · rw [if_pos hbx] at h; omega
      · rw [if_neg hbx] at h
        cases j with
        | zero => simpa using (by omega : x < best)
        | succ k =>
          have hk : k < stopIdx x (y :: ys) := by omega
          have hrec := ih x k hk
          cases k with
          | zero => simpa using hrec
          | succ m =>
            simp only [List.getD_cons_succ] at hrec ⊢
            simpa using hrec

theorem stopIdx_fails_at_stop (l : List Nat) : ∀ (best : Nat),
    stopIdx best l < l.length - 1 →
    (if stopIdx best l = 0 then best else l.getD (stopIdx best l - 1) 0) ≤
      l.getD (stopIdx best l) 0 := by
  induction l with
  | nil => intro best h; simp [stopIdx] at h
  | cons x xs ih =>
    intro best h
    cases xs with
    | nil => simp [stopIdx] at h
    | cons y ys =>
      by_cases hbx : best ≤ x
      · simp only [stopIdx, if_pos hbx]
        simpa using hbx
      · simp only [stopIdx, if_neg hbx] at h ⊢
        have hh : stopIdx x (y :: ys) < (y :: ys).length - 1 := by
          simp only [List.length_cons] at h ⊢
          omega
        have hrec := ih x hh
        rw [if_neg (by omega)]
        cases hs : stopIdx x (y :: ys) with
        | zero =>
          rw [hs] at hrec
          simpa using hrec
        | succ m =>
          rw [hs] at hrec
          rw [if_neg (by omega)] at hrec
          simpa using hrec

theorem stopIdx_eq_last (l : List Nat) (best : Nat)
    (h : ∀ j, j ≤ l.length - 1 →
      l.getD j 0 < (if j = 0 then best else l.getD (j - 1) 0)) :
    stopIdx best l = l.length - 1 := by
  rcases Nat.lt_or_ge (stopIdx best l) (l.length - 1) with hlt | hge
  · have h1 := stopIdx_fails_at_stop l best hlt
    have h2 := h (stopIdx best l) (by omega)
    omega
  · exact le_antisymm (stopIdx_le best l) hge

theorem getD_range_map (f : Nat → Nat) (n j : Nat) (h : j < n) :
    ((List.range n).map f).getD j 0 = f j := by
  rw [List.getD_eq_getElem?_getD, List.getElem?_map, List.getElem?_range h]
  rfl

theorem drop_length_sub_one {α : Type} (dflt : α) :
    ∀ (l : List α), l ≠ [] → l.drop (l.length - 1) = [l.getD (l.length - 1) dflt] := by
  intro l
  induction l with
  | nil => intro h; exact absurd rfl h
  | cons x xs ih =>
    intro _
    cases xs with
    | nil => simp
    | cons y ys =>
      have hrec := ih (by simp)
      simp only [List.length_cons] at hrec ⊢
      simpa [Nat.succ_sub_one] using hrec

/-! ### Helper lemmas about the delimiter loop and stripping -/

theorem tryDelimiters_eq_some {τ : Type} (enc : Encoding τ) (titles : List Str)
    (text : Str) (f : List Str × Str → List Str) :
    ∀ (ds : List Str) (res : List Str),
      tryDelimiters enc titles text f ds = some res →
      ∃ a b, res = f (titles, a) ++ f (titles, b) := by
  intro ds
  induction ds with
  | nil => intro res h; simp [tryDelimiters] at h
  | cons d ds ih =>
    intro res h
    rw [tryDelimiters] at h
    split at h
    · exact ih res h
    · exact ⟨_, _, (Option.some.inj h).symm⟩

theorem dropWhile_head_false {α : Type} (p : α → Bool) :
    ∀ (l : List α) (x : α) (xs : List α), List.dropWhile p l = x :: xs → p x = false := by
  intro l
  induction l with
  | nil => intro x xs h; simp [List.dropWhile] at h
  | cons a t ih =>
    intro x xs h
    rw [List.dropWhile_cons] at h
    by_cases hp : p a = true
    · rw [if_pos hp] at h
      exact ih x xs h
    · rw [if_neg hp] at h
      injection h with h1 _
      rw [← h1]
      simpa using hp

theorem pyStrip_idem (cs s : Str) : pyStrip cs (pyStrip cs s) = pyStrip cs s := by
  unfold pyStrip
  have hd : List.dropWhile (cs.contains ·)
        (List.rdropWhile (cs.contains ·) (List.dropWhile (cs.contains ·) s)) =
      List.rdropWhile (cs.contains ·) (List.dropWhile (cs.contains ·) s) := by
    rcases hn : List.rdropWhile (cs.contains ·) (List.dropWhile (cs.contains ·) s)
      with _ | ⟨x, xs⟩
    · simp
    · have hpre := List.rdropWhile_prefix (cs.contains ·)
        (List.dropWhile (cs.contains ·) s)
      rw [hn] at hpre
      obtain ⟨u, hu⟩ := hpre
      have hx : cs.contains x = false := by
        apply dropWhile_head_false (cs.contains ·) s x (xs ++ u)
        rw [← hu]
        simp
      rw [List.dropWhile_cons, if_neg (by rw [hx]; simp)]
  rw [hd, List.rdropWhile_idempotent]

/-! ### Claim theorems -/

/-- C2: for every subsection whose composed candidate string (titles and text
joined with the fixed separator `"\n\n"`) has `num_tokens` at most
`max_tokens`, `split_strings_from_subsection` returns exactly the one-element
list containing that candidate string, regardless of `max_recursion`. -/
theorem split_strings_single_when_fits {τ : Type} (enc : Encoding τ)
    (titles : List Str) (text : Str) (max_tokens max_recursion : Nat)
    (h : num_tokens enc (joinSep nlnl (titles ++ [text])) ≤ max_tokens) :
    split_strings_from_subsection enc max_tokens max_recursion (titles, text) =
      [joinSep nlnl (titles ++ [text])] := by
  rw [split_strings_from_subsection.eq_def]
  simp [h]

/-- Witness for C2: a concrete subsection that fits the budget comes back as
the single candidate string. -/
theorem split_strings_single_when_fits_w :
    num_tokens idEnc (joinSep nlnl ([['T']] ++ ["ab".data])) ≤ 100 ∧
    split_strings_from_subsection idEnc 100 5 ([['T']], "ab".data) =
      [joinSep nlnl ([['T']] ++ ["ab".data])] :=
  ⟨by decide, split_strings_single_when_fits idEnc [['T']] "ab".data 100 5 (by decide)⟩

/-- C3: for a tokenizer whose decode is a left inverse of encode and which
re-encodes a decoded token prefix to itself (the collaborator contract of the
spec), `truncated_string` returns a string of exactly `max_tokens` tokens when
the input exceeds the budget, and returns the input unchanged otherwise. -/
theorem truncated_string_contract {τ : Type} (enc : Encoding τ)
    (hrt : ∀ t, enc.decode (enc.encode t) = t)
    (hps : ∀ t n, enc.encode (enc.decode ((enc.encode t).take n)) =
      (enc.encode t).take n)
    (s : Str) (max_tokens : Nat) :
    (max_tokens < num_tokens enc s →
      num_tokens enc (truncated_string enc s max_tokens) = max_tokens) ∧
    (num_tokens enc s ≤ max_tokens → truncated_string enc s max_tokens = s) := by
  constructor
  · intro h
    simp only [num_tokens, truncated_string] at h ⊢
    rw [hps, List.length_take]
    omega
  · intro h
    simp only [num_tokens, truncated_string] at h ⊢
    rw [List.take_of_length_le h, hrt]

/-- Witness for C3: with the character tokenizer, truncating `"abc"` to two
tokens yields exactly two tokens, and a short string is returned unchanged. -/
theorem truncated_string_contract_w :
    (2 < num_tokens idEnc "abc".data ∧
      num_tokens idEnc (truncated_string idEnc "abc".data 2) = 2) ∧
    (num_tokens idEnc "ab".data ≤ 5 ∧ truncated_string idEnc "ab".data 5 = "ab".data) :=
  ⟨⟨by decide, (truncated_string_contract idEnc (fun _ => rfl) (fun _ _ => rfl)
      "abc".data 2).1 (by decide)⟩,
    ⟨by decide, (truncated_string_contract idEnc (fun _ => rfl) (fun _ _ => rfl)
      "ab".data 5).2 (by decide)⟩⟩

/-- C5: a heading node whose title, stripped of `'='` and `' '` decoration, is
in the ignore set contributes no subsection at all — the function returns
before recursing, so the whole subtree is pruned. -/
theorem ignored_section_prunes_subtree (title body : Str)
    (children : List WikiSection) (parent_titles sections_to_ignore : List Str)
    (h : pyStrip headingChars title ∈ sections_to_ignore) :
    all_subsections_from_section (WikiSection.mk title body children)
      parent_titles sections_to_ignore = [] := by
  rw [all_subsections_from_section]
  simp [h]

/-- Witness for C5: a `==References==` node with a nested child yields no
subsections at all. -/
theorem ignored_section_prunes_subtree_w :
    pyStrip headingChars "==References==".data ∈ ["References".data] ∧
    all_subsections_from_section
      (WikiSection.mk "==References==".data "x".data
        [WikiSection.mk "===Sub===".data "y".data []])
      [] ["References".data] = [] :=
  ⟨by decide, ignored_section_prunes_subtree _ _ _ _ _ (by decide)⟩

/-- Counterexample for C7: `clean_section` is not idempotent.  Removing the
span `<ref>x</ref>` from `"<re<ref>x</ref>f>y</ref>"` concatenates the
surrounding text into the fresh span `"<ref>y</ref>"`, which a second pass
removes. -/
theorem clean_section_not_idempotent_cex :
    clean_section (clean_section ([], "<re<ref>x</ref>f>y</ref>".data)) ≠
      clean_section ([], "<re<ref>x</ref>f>y</ref>".data) := by decide

/-- C7 (amended): `clean_section` is idempotent on every subsection whose
cleaned text is left unchanged by another reference-removal pass (in
particular on any cleaned text with no remaining `<ref…</ref>` match);
stripping alone is always idempotent. -/
theorem clean_section_idempotent_when_stable (sec : List Str × Str)
    (h : refSub (clean_section sec).2 = (clean_section sec).2) :
    clean_section (clean_section sec) = clean_section sec := by
  obtain ⟨ts, t⟩ := sec
  simp only [clean_section] at h ⊢
  rw [h]
  simp only [pyStripWs]
  rw [pyStrip_idem]

/-- Witness for C7 (amended): a subsection whose cleaned text has no further
match is a fixed point of `clean_section`. -/
theorem clean_section_idempotent_when_stable_w :
    refSub (clean_section ([], " a<ref>b</ref>c".data)).2 =
        (clean_section ([], " a<ref>b</ref>c".data)).2 ∧
      clean_section (clean_section ([], " a<ref>b</ref>c".data)) =
        clean_section ([], " a<ref>b</ref>c".data) :=
  ⟨by decide, clean_section_idempotent_when_stable _ (by decide)⟩

/-- C9: because `.` in the pattern `<ref.*?</ref>` does not match a newline,
there is a subsection whose text contains a `<ref>…</ref>` span with an
embedded line break, and `clean_section` returns that text unchanged instead
of removing the span. -/
theorem clean_section_keeps_multiline_ref :
    ∃ (titles : List Str) (pre mid post : Str),
      '\n' ∈ mid ∧
      clean_section (titles, pre ++ openRef ++ ['>'] ++ mid ++ closeRef ++ post) =
        (titles, pre ++ openRef ++ ['>'] ++ mid ++ closeRef ++ post) := by
  refine ⟨[], "a".data, "b\nc".data, "d".data, by decide, by decide⟩

/-- Case analysis on one unfolding of `split_strings_from_subsection`: the
result is the candidate itself, a truncation of the candidate, or the
concatenation of two recursive calls at depth one less. -/
theorem split_strings_cases {τ : Type} (enc : Encoding τ) (mt r : Nat)
    (titles : List Str) (text : Str) :
    (num_tokens enc (joinSep nlnl (titles ++ [text])) ≤ mt ∧
      split_strings_from_subsection enc mt r (titles, text) =
        [joinSep nlnl (titles ++ [text])]) ∨
    (split_strings_from_subsection enc mt r (titles, text) =
        [truncated_string enc (joinSep nlnl (titles ++ [text])) mt]) ∨
    (∃ r' a b, r = r' + 1 ∧
      split_strings_from_subsection enc mt r (titles, text) =
        split_strings_from_subsection enc mt r' (titles, a) ++
        split_strings_from_subsection enc mt r' (titles, b)) := by
  by_cases h : num_tokens enc (joinSep nlnl (titles ++ [text])) ≤ mt
  · left
    refine ⟨h, ?_⟩
    rw [split_strings_from_subsection.eq_def]
    simp [h]
  · cases r with
    | zero =>
      right; left
      rw [split_strings_from_subsection.eq_def]
      simp [h]
    | succ r' =>
      rcases htd : tryDelimiters enc titles text
          (fun sub => split_strings_from_subsection enc mt r' sub)
          [nlnl, nl, periodSpace] with _ | res
      · right; left
        rw [split_strings_from_subsection.eq_def]
        simp [h, htd]
      · obtain ⟨a, b, hab⟩ := tryDelimiters_eq_some enc titles text _ _ res htd
        right; right
        refine ⟨r', a, b, rfl, ?_⟩
        rw [split_strings_from_subsection.eq_def]
        simp only [if_neg h, htd, hab]

/-- C1: for every subsection, positive token budget and recursion budget,
`split_strings_from_subsection` returns a non-empty list, and every element
either has `num_tokens` at most `max_tokens` or is a result of the truncation
fallback `truncated_string`. -/
theorem split_strings_nonempty_and_bounded {τ : Type} (enc : Encoding τ)
    (max_tokens : Nat) (_hpos : 0 < max_tokens) :
    ∀ (max_recursion : Nat) (titles : List Str) (text : Str),
      split_strings_from_subsection enc max_tokens max_recursion (titles, text) ≠ [] ∧
      ∀ e ∈ split_strings_from_subsection enc max_tokens max_recursion (titles, text),
        num_tokens enc e ≤ max_tokens ∨
          ∃ s, e = truncated_string enc s max_tokens := by
  intro r
  induction r with
  | zero =>
    intro titles text
    rcases split_strings_cases enc max_tokens 0 titles text with
      ⟨h, he⟩ | he | ⟨r', a, b, hr, _⟩
    · rw [he]
      refine ⟨by simp, ?_⟩
      intro e hm
      rw [List.mem_singleton] at hm
      subst hm
      exact Or.inl h
    · rw [he]
      refine ⟨by simp, ?_⟩
      intro e hm
      rw [List.mem_singleton] at hm
      subst hm
      exact Or.inr ⟨_, rfl⟩
    · exact absurd hr (by simp)
  | succ r ih =>
    intro titles text
    rcases split_strings_cases enc max_tokens (r + 1) titles text with
      ⟨h, he⟩ | he | ⟨r', a, b, hr, he⟩
    · rw [he]
      refine ⟨by simp, ?_⟩
      intro e hm
      rw [List.mem_singleton] at hm
      subst hm
      exact Or.inl h
    · rw [he]
      refine ⟨by simp, ?_⟩
      intro e hm
      rw [List.mem_singleton] at hm
      subst hm
      exact Or.inr ⟨_, rfl⟩
    · obtain rfl : r' = r := by omega
      rw [he]
      constructor
      · intro hnil
        rw [List.append_eq_nil] at hnil
        exact (ih titles a).1 hnil.1
      · intro e hm
        rcases List.mem_append.mp hm with hm | hm
        · exact (ih titles a).2 e hm
        · exact (ih titles b).2 e hm

/-- Witness for C1: at a concrete subsection and budget, the result is
non-empty and its head is within budget. -/
theorem split_strings_nonempty_and_bounded_w :
    0 < 3 ∧
    split_strings_from_subsection idEnc 3 1 ([['T']], "ab\n\ncd".data) ≠ [] :=
  ⟨by decide,
    (split_strings_nonempty_and_bounded idEnc 3 (by decide) 1 [['T']] "ab\n\ncd".data).1⟩

/-- C8: the list returned by `split_strings_from_subsection` has length at
most `2 ^ max_recursion` — each recursion level splits into at most two
halves. -/
theorem split_strings_length_le_pow {τ : Type} (enc : Encoding τ) (mt : Nat) :
    ∀ (max_recursion : Nat) (sub : List Str × Str),
      (split_strings_from_subsection enc mt max_recursion sub).length ≤
        2 ^ max_recursion := by
  intro r
  induction r with
  | zero =>
    intro sub
    obtain ⟨titles, text⟩ := sub
    rcases split_strings_cases enc mt 0 titles text with
      ⟨_, he⟩ | he | ⟨r', a, b, hr, _⟩
    · rw [he]; simp
    · rw [he]; simp
    · exact absurd hr (by simp)
  | succ r ih =>
    intro sub
    obtain ⟨titles, text⟩ := sub
    have hone : 1 ≤ 2 ^ (r + 1) := Nat.one_le_two_pow
    rcases split_strings_cases enc mt (r + 1) titles text with
      ⟨_, he⟩ | he | ⟨r', a, b, hr, he⟩
    · rw [he]; simpa using hone
    · rw [he]; simpa using hone
    · rw [he, List.length_append]
      have ha := ih (titles, a)
      have hb := ih (titles, b)
      have hrr : r' = r := by omega
      rw [hrr]
      have hp : 2 ^ (r + 1) = 2 ^ r + 2 ^ r := by
        rw [pow_succ]
        ring
      omega

/-- C6: whenever `halved_by_delimiter` returns two non-empty halves, joining
them back with the delimiter reconstructs the original string exactly. -/
theorem halved_by_delimiter_lossless {τ : Type} (enc : Encoding τ) (s d : Str)
    (h1 : (halved_by_delimiter enc s d).1 ≠ [])
    (h2 : (halved_by_delimiter enc s d).2 ≠ []) :
    (halved_by_delimiter enc s d).1 ++ d ++ (halved_by_delimiter enc s d).2 = s := by
  have hjoin := joinSep_pySplit d s
  rcases hc : pySplit d s with _ | ⟨a, t1⟩
  · exact absurd hc (pySplit_ne_nil d s)
  rcases t1 with _ | ⟨b, t2⟩
  · simp only [halved_by_delimiter, hc] at h2
    exact absurd rfl h2
  rcases t2 with _ | ⟨c, t3⟩
  · simp only [halved_by_delimiter, hc] at h1 h2 ⊢
    rw [hc] at hjoin
    simpa [joinSep] using hjoin
  · simp only [halved_by_delimiter, hc] at h1 h2 ⊢
    rw [hc] at hjoin
    generalize hidef : stopIdx (num_tokens enc s / 2)
        ((List.range (a :: b :: c :: t3).length).map
          (halfDiff enc d (a :: b :: c :: t3) (num_tokens enc s / 2))) = i
      at h1 h2 ⊢
    have hile : i ≤ (a :: b :: c :: t3).length - 1 := by
      rw [← hidef]
      have hle := stopIdx_le (num_tokens enc s / 2)
        ((List.range (a :: b :: c :: t3).length).map
          (halfDiff enc d (a :: b :: c :: t3) (num_tokens enc s / 2)))
      simpa using hle
    have hi_pos : i ≠ 0 := by
      intro h0
      rw [h0] at h1
      simp [joinSep] at h1
    have htake : (a :: b :: c :: t3).take i ≠ [] := by
      intro hcon
      rw [List.take_eq_nil_iff] at hcon
      rcases hcon with hcon | hcon
      · exact hi_pos hcon
      · simp at hcon
    have hdrop : (a :: b :: c :: t3).drop i ≠ [] := by
      intro hcon
      rw [List.drop_eq_nil_iff] at hcon
      simp only [List.length_cons] at hcon hile
      omega
    rw [← joinSep_append d ((a :: b :: c :: t3).take i) ((a :: b :: c :: t3).drop i)
        htake hdrop,
      List.take_append_drop]
    exact hjoin

/-- Witness for C6: the spec's scenario string `"p1\n\np2\n\np3\n\np4"` with
delimiter `"\n\n"` splits into two non-empty halves that rejoin to the
original. -/
theorem halved_by_delimiter_lossless_w :
    ((halved_by_delimiter idEnc "p1\n\np2\n\np3\n\np4".data nlnl).1 ≠ [] ∧
      (halved_by_delimiter idEnc "p1\n\np2\n\np3\n\np4".data nlnl).2 ≠ []) ∧
    (halved_by_delimiter idEnc "p1\n\np2\n\np3\n\np4".data nlnl).1 ++ nlnl ++
        (halved_by_delimiter idEnc "p1\n\np2\n\np3\n\np4".data nlnl).2 =
      "p1\n\np2\n\np3\n\np4".data :=
  ⟨⟨by decide, by decide⟩,
    halved_by_delimiter_lossless idEnc "p1\n\np2\n\np3\n\np4".data nlnl
      (by decide) (by decide)⟩

/-! ### The scan-stop characterisation of `halved_by_delimiter` (C4) -/

theorem stopIdx_range_map_le (f : Nat → Nat) (best n : Nat) :
    stopIdx best ((List.range n).map f) ≤ n - 1 := by
  have h := stopIdx_le best ((List.range n).map f)
  simpa using h

theorem stopIdx_range_map_improves (f : Nat → Nat) (best n j : Nat)
    (hj : j < stopIdx best ((List.range n).map f)) :
    f j < if j = 0 then best else f (j - 1) := by
  have h1 := stopIdx_range_map_le f best n
  have hn : j < n := by omega
  have h := stopIdx_lt_improves ((List.range n).map f) best j hj
  rw [getD_range_map f n j hn] at h
  by_cases hz : j = 0
  · rw [if_pos hz] at h ⊢
    exact h
  · rw [if_neg hz] at h ⊢
    rw [getD_range_map f n (j - 1) (by omega)] at h
    exact h

theorem stopIdx_range_map_fails (f : Nat → Nat) (best n : Nat)
    (h : stopIdx best ((List.range n).map f) < n - 1) :
    (if stopIdx best ((List.range n).map f) = 0 then best
      else f (stopIdx best ((List.range n).map f) - 1)) ≤
      f (stopIdx best ((List.range n).map f)) := by
  have hlen : ((List.range n).map f).length = n := by simp
  have hs := stopIdx_fails_at_stop ((List.range n).map f) best (by rw [hlen]; exact h)
  have hn : stopIdx best ((List.range n).map f) < n := by omega
  rw [getD_range_map f n _ hn] at hs
  by_cases hz : stopIdx best ((List.range n).map f) = 0
  · rw [if_pos hz] at hs ⊢
    exact hs
  · rw [if_neg hz] at hs ⊢
    rw [getD_range_map f n _ (by omega)] at hs
    exact hs

theorem stopIdx_range_map_last (f : Nat → Nat) (best n : Nat)
    (h : ∀ j, j ≤ n - 1 → f j < if j = 0 then best else f (j - 1)) :
    stopIdx best ((List.range n).map f) = n - 1 := by
  rcases Nat.eq_zero_or_pos n with rfl | hn
  · simp [stopIdx]
  · have hlen : ((List.range n).map f).length = n := by simp
    have h2 : ∀ j, j ≤ ((List.range n).map f).length - 1 →
        ((List.range n).map f).getD j 0 <
          (if j = 0 then best else ((List.range n).map f).getD (j - 1) 0) := by
      intro j hj
      rw [hlen] at hj
      have hjn : j < n := by omega
      have hh := h j hj
      rw [getD_range_map f n j hjn]
      by_cases hz : j = 0
      · rw [if_pos hz] at hh ⊢
        exact hh
      · rw [if_neg hz, getD_range_map f n (j - 1) (by omega)]
        rw [if_neg hz] at hh
        exact hh
    have h3 := stopIdx_eq_last ((List.range n).map f) best h2
    rw [hlen] at h3
    exact h3

/-- The diff the scan computes at index `j` on input `s` with delimiter `d`:
`abs(halfway - num_tokens(d.join(chunks[: j + 1])))`. -/
def scanDiff {τ : Type} (enc : Encoding τ) (s d : Str) (j : Nat) : Nat :=
  halfDiff enc d (pySplit d s) (num_tokens enc s / 2) j

/-- The value of `best_diff` just before iteration `j` of a scan in which
every earlier step strictly improved: `halfway` at `j = 0`, else the previous
diff. -/
def scanPrev {τ : Type} (enc : Encoding τ) (s d : Str) (j : Nat) : Nat :=
  if j = 0 then num_tokens enc s / 2 else scanDiff enc s d (j - 1)

/-- What C4 asserts of the split point `i` chosen by `halved_by_delimiter`
when the string splits into three or more pieces: the halves are the pieces
strictly before `i` and the pieces from `i` onward; every index before `i`
strictly improved `best_diff`; `i` itself failed to improve unless the scan
ran off the end; and when every scanned index improves, the right half is
exactly the final piece alone. -/
def halvedSpec {τ : Type} (enc : Encoding τ) (s d : Str) (i : Nat) : Prop :=
  halved_by_delimiter enc s d =
      (joinSep d ((pySplit d s).take i), joinSep d ((pySplit d s).drop i)) ∧
  i ≤ (pySplit d s).length - 1 ∧
  (∀ j, j < i → scanDiff enc s d j < scanPrev enc s d j) ∧
  (i < (pySplit d s).length - 1 → scanPrev enc s d i ≤ scanDiff enc s d i) ∧
  ((∀ j, j ≤ (pySplit d s).length - 1 → scanDiff enc s d j < scanPrev enc s d j) →
    (pySplit d s).drop i = [(pySplit d s).getD ((pySplit d s).length - 1) []])

/-- C4: when the string splits into three or more pieces, `halved_by_delimiter`
splits at the first index whose diff fails to strictly improve `best_diff`
(left = pieces strictly before it, right = pieces from it onward), and when
the scan runs through all pieces without ever failing to improve, the right
half is exactly the final piece alone. -/
theorem halved_by_delimiter_scan_stop {τ : Type} (enc : Encoding τ) (s d : Str)
    (h3 : 3 ≤ (pySplit d s).length) :
    ∃ i, halvedSpec enc s d i := by
  rcases hc : pySplit d s with _ | ⟨a, t1⟩
  · rw [hc] at h3
    simp at h3
  rcases t1 with _ | ⟨b, t2⟩
  · rw [hc] at h3
    simp at h3
  rcases t2 with _ | ⟨c, t3⟩
  · rw [hc] at h3
    simp at h3
  have hsd : ∀ j, scanDiff enc s d j =
      halfDiff enc d (a :: b :: c :: t3) (num_tokens enc s / 2) j := by
    intro j
    simp only [scanDiff, hc]
  have hsp : ∀ j, scanPrev enc s d j =
      (if j = 0 then num_tokens enc s / 2
        else halfDiff enc d (a :: b :: c :: t3) (num_tokens enc s / 2) (j - 1)) := by
    intro j
    simp only [scanPrev, hsd]
  simp only [halvedSpec, hc]
  refine ⟨stopIdx (num_tokens enc s / 2)
      ((List.range (a :: b :: c :: t3).length).map
        (halfDiff enc d (a :: b :: c :: t3) (num_tokens enc s / 2))),
    ?_, ?_, ?_, ?_, ?_⟩
  · simp only [halved_by_delimiter, hc]
  · exact stopIdx_range_map_le _ _ _
  · intro j hj
    rw [hsd j, hsp j]
    exact stopIdx_range_map_improves _ _ _ j hj
  · intro hlt
    rw [hsd, hsp]
    exact stopIdx_range_map_fails _ _ _ hlt
  · intro hall
    have hall' : ∀ j, j ≤ (a :: b :: c :: t3).length - 1 →
        halfDiff enc d (a :: b :: c :: t3) (num_tokens enc s / 2) j <
          (if j = 0 then num_tokens enc s / 2
            else halfDiff enc d (a :: b :: c :: t3) (num_tokens enc s / 2) (j - 1)) := by
      intro j hj
      have hh := hall j hj
      rw [hsd j, hsp j] at hh
      exact hh
    have hlast := stopIdx_range_map_last
      (halfDiff enc d (a :: b :: c :: t3) (num_tokens enc s / 2))
      (num_tokens enc s / 2) (a :: b :: c :: t3).length hall'
    rw [hlast]
    exact drop_length_sub_one [] (a :: b :: c :: t3) (by simp)

/-- Witness for C4: a concrete three-piece split satisfies the scan-stop
characterisation. -/
theorem halved_by_delimiter_scan_stop_w :
    3 ≤ (pySplit nl "a\nbb\nc".data).length ∧
    ∃ i, halvedSpec idEnc "a\nbb\nc".data nl i :=
  ⟨by decide, halved_by_delimiter_scan_stop idEnc "a\nbb\nc".data nl (by decide)⟩

/-- C10: there is a string containing the delimiter at least twice (three or
more pieces) whose first piece has zero tokens; the scan breaks at index 0,
`halved_by_delimiter` returns an empty left half together with the whole
string, and the caller (`tryDelimiters`) treats this as a failed split and
moves on to the next delimiter. -/
theorem halved_by_delimiter_empty_left_skip :
    ∃ s : Str,
      3 ≤ (pySplit nlnl s).length ∧
      num_tokens idEnc ((pySplit nlnl s).getD 0 []) = 0 ∧
      halved_by_delimiter idEnc s nlnl = ([], s) ∧
      ∀ (titles : List Str) (f : List Str × Str → List Str) (ds : List Str),
        tryDelimiters idEnc titles s f (nlnl :: ds) =
          tryDelimiters idEnc titles s f ds := by
  refine ⟨"\n\nA\n\nB".data, by decide, by decide, by decide, ?_⟩
  intro titles f ds
  have h : halved_by_delimiter idEnc "\n\nA\n\nB".data nlnl =
      ([], "\n\nA\n\nB".data) := by decide
  simp only [tryDelimiters, h]
  simp
